import Mathlib

/-!
Shallow embedding of the display-lib repository (src/rgba.rs, src/canvas.rs)
and verification of the specification's claims about it.

The Rust `Rgba` type is a union of `value : [u8; 4]` and `number : u32`.
On the little-endian layout the byte at position 0 is the least significant
byte of `number`, so the two views are related by
`number = value[0] + value[1]*2^8 + value[2]*2^16 + value[3]*2^24`.
We model the byte view as a structure with four `Nat` fields (each a byte)
named after the channel stored at that position (`Rgba::new(red, green,
blue, alpha)` stores `value = [blue, green, red, alpha]`), and the `u32`
view as the explicit packing/unpacking pair `toU32` / `ofU32`.
-/

namespace DisplayLib

/-- The four channel bytes of `Rgba`, in byte-array order: `value[0]` is
blue, `value[1]` is green, `value[2]` is red, `value[3]` is alpha
(mirrors `Rgba::new`, which stores `value: [blue, green, red, alpha]`). -/
structure Rgba where
  blue : Nat
  green : Nat
  red : Nat
  alpha : Nat
deriving DecidableEq, Repr

/-- `Rgba::new(red, green, blue, alpha)` from src/rgba.rs. -/
def Rgba.new (red green blue alpha : Nat) : Rgba :=
  ⟨blue, green, red, alpha⟩

/-- `Rgba::new_opaque(red, green, blue)` from src/rgba.rs: alpha fixed at 255. -/
def Rgba.new_opaque (red green blue : Nat) : Rgba :=
  ⟨blue, green, red, 255⟩

/-- `Rgba::BLACK`. -/
def Rgba.BLACK : Rgba := Rgba.new_opaque 0 0 0

/-- `Rgba::WHITE`. -/
def Rgba.WHITE : Rgba := Rgba.new_opaque 255 255 255

/-- The predicate that every channel of a color is a byte (the invariant
enforced in Rust by the `u8` channel type). -/
def Rgba.Bytes (c : Rgba) : Prop :=
  c.blue < 256 ∧ c.green < 256 ∧ c.red < 256 ∧ c.alpha < 256

instance (c : Rgba) : Decidable c.Bytes := by
  unfold Rgba.Bytes; infer_instance

/-- `fn blend_color(a: u8, b: u8, t: u8) -> u8` from src/rgba.rs:
`(((b * t) + (a * (255 - t)) + 1) >> 8) as u8`, computed in `u16`.
The `% 65536` is the `u16` wrap of the sum and the final `% 256` is the
`as u8` truncation (both are shown to be identities for byte inputs). -/
def blend_color (a b t : Nat) : Nat :=
  (((b * t + a * (255 - t) + 1) % 65536) >>> 8) % 256

/-- `Rgba::blend(self, rhs, proportion)` from src/rgba.rs: blends the
red, blue and green channels with `blend_color` and leaves alpha as is
(the loop runs over `[Red, Blue, Green]` only). -/
def Rgba.blend (self rhs : Rgba) (proportion : Nat) : Rgba :=
  { self with
    red := blend_color self.red rhs.red proportion
    blue := blend_color self.blue rhs.blue proportion
    green := blend_color self.green rhs.green proportion }

/-- `From<Rgba> for u32`: the `number` view of the union, i.e. the four
bytes assembled little-endian. -/
def Rgba.toU32 (c : Rgba) : Nat :=
  c.blue + c.green * 2 ^ 8 + c.red * 2 ^ 16 + c.alpha * 2 ^ 24

/-- `From<u32> for Rgba`: the byte view of a 32-bit number, little-endian. -/
def Rgba.ofU32 (n : Nat) : Rgba :=
  ⟨n % 256, n / 2 ^ 8 % 256, n / 2 ^ 16 % 256, n / 2 ^ 24 % 256⟩

/-- Example colors used to instantiate the blend theorems. -/
def cA : Rgba := Rgba.new 10 20 30 40

/-- Second example color used to instantiate the blend theorems. -/
def cB : Rgba := Rgba.new 50 60 70 80

lemma shiftLeft_lor_eq_add (x k y : Nat) (hy : y < 2 ^ k) :
    (x <<< k) ||| y = x * 2 ^ k + y := by
  apply Nat.eq_of_testBit_eq
  intro i
  rw [Nat.testBit_or, Nat.testBit_shiftLeft,
    show x * 2 ^ k + y = 2 ^ k * x + y by ring,
    Nat.testBit_mul_pow_two_add x hy i]
  rcases Nat.lt_or_ge i k with h | h
  · have h2 : ¬ (i ≥ k) := by omega
    simp [h, h2]
  · have hyb : y.testBit i = false :=
      Nat.testBit_lt_two_pow (lt_of_lt_of_le hy (Nat.pow_le_pow_right (by norm_num) h))
    simp [h, hyb, Nat.not_lt.mpr h]

lemma blend_color_spec (a b t : Nat) (ha : a < 256) (hb : b < 256) (ht : t < 256) :
    blend_color a b t = (b * t + a * (255 - t) + 1) >>> 8 ∧
    b * t + a * (255 - t) + 1 < 2 ^ 16 ∧
    blend_color a b t < 2 ^ 8 := by
  have h1 : b * t ≤ 255 * t := Nat.mul_le_mul_right t (by omega)
  have h2 : a * (255 - t) ≤ 255 * (255 - t) := Nat.mul_le_mul_right _ (by omega)
  have h3 : 255 * t + 255 * (255 - t) = 255 * 255 := by
    rw [← Nat.mul_add]; congr 1; omega
  have hsum : b * t + a * (255 - t) + 1 < 65536 := by linarith
  unfold blend_color
  simp only [Nat.shiftRight_eq_div_pow]
  set S := b * t + a * (255 - t) + 1 with hS
  refine ⟨by omega, by omega, by omega⟩

/-- C2 counterexample: `black.blend(white, 255)` is not `white`: the
`+1, >>8` rounding gives channel value `(255*255 + 1) >> 8 = 254`. -/
theorem blend_black_white_255_ne_white :
    Rgba.BLACK.blend Rgba.WHITE 255 ≠ Rgba.WHITE := by decide

/-- C2 (amended): `black.blend(white, 0) = black`;
`black.blend(white, 255)` has red = green = blue = 254 (not white); and
for every proportion the alpha channel of the result equals black's alpha. -/
theorem blend_boundary_values :
    Rgba.BLACK.blend Rgba.WHITE 0 = Rgba.BLACK ∧
    Rgba.BLACK.blend Rgba.WHITE 255 = Rgba.new 254 254 254 255 ∧
    ∀ t : Nat, (Rgba.BLACK.blend Rgba.WHITE t).alpha = Rgba.BLACK.alpha :=
  ⟨by decide, by decide, fun _ => rfl⟩

/-- C3: for byte-valued colors and any proportion byte `t`, `blend`
computes each of the red, green, blue channels as exactly
`(other*t + self*(255-t) + 1) >> 8`: the intermediate sum stays below
`2^16` (no `u16` overflow), the result fits in a byte, and the alpha
channel of `self` is left unchanged. -/
theorem blend_is_exact_lerp (s r : Rgba) (t : Nat)
    (hs : s.Bytes) (hr : r.Bytes) (ht : t < 256) :
    ((s.blend r t).red = (r.red * t + s.red * (255 - t) + 1) >>> 8 ∧
     (s.blend r t).green = (r.green * t + s.green * (255 - t) + 1) >>> 8 ∧
     (s.blend r t).blue = (r.blue * t + s.blue * (255 - t) + 1) >>> 8) ∧
    (r.red * t + s.red * (255 - t) + 1 < 2 ^ 16 ∧
     r.green * t + s.green * (255 - t) + 1 < 2 ^ 16 ∧
     r.blue * t + s.blue * (255 - t) + 1 < 2 ^ 16) ∧
    ((s.blend r t).red < 2 ^ 8 ∧ (s.blend r t).green < 2 ^ 8 ∧
     (s.blend r t).blue < 2 ^ 8) ∧
    (s.blend r t).alpha = s.alpha := by
  obtain ⟨hsb, hsg, hsr, hsa⟩ := hs
  obtain ⟨hrb, hrg, hrr, hra⟩ := hr
  have Hr := blend_color_spec s.red r.red t hsr hrr ht
  have Hg := blend_color_spec s.green r.green t hsg hrg ht
  have Hb := blend_color_spec s.blue r.blue t hsb hrb ht
  exact ⟨⟨Hr.1, Hg.1, Hb.1⟩, ⟨Hr.2.1, Hg.2.1, Hb.2.1⟩,
    ⟨Hr.2.2, Hg.2.2, Hb.2.2⟩, rfl⟩

/-- Witness for C3 at the concrete colors `cA`, `cB` and proportion 200. -/
theorem blend_is_exact_lerp_witness :
    cA.Bytes ∧ cB.Bytes ∧ 200 < 256 ∧
    (((cA.blend cB 200).red = (cB.red * 200 + cA.red * (255 - 200) + 1) >>> 8 ∧
      (cA.blend cB 200).green = (cB.green * 200 + cA.green * (255 - 200) + 1) >>> 8 ∧
      (cA.blend cB 200).blue = (cB.blue * 200 + cA.blue * (255 - 200) + 1) >>> 8) ∧
     (cB.red * 200 + cA.red * (255 - 200) + 1 < 2 ^ 16 ∧
      cB.green * 200 + cA.green * (255 - 200) + 1 < 2 ^ 16 ∧
      cB.blue * 200 + cA.blue * (255 - 200) + 1 < 2 ^ 16) ∧
     ((cA.blend cB 200).red < 2 ^ 8 ∧ (cA.blend cB 200).green < 2 ^ 8 ∧
      (cA.blend cB 200).blue < 2 ^ 8) ∧
     (cA.blend cB 200).alpha = cA.alpha) :=
  ⟨by decide, by decide, by decide,
    blend_is_exact_lerp cA cB 200 (by decide) (by decide) (by decide)⟩

/-- C4 counterexample: blending `(0,0,0,255)` with `(255,255,255,255)` at
proportion 128 does not give channel value 128: `(255*128 + 1) >> 8 = 127`. -/
theorem blend_midpoint_not_128 :
    ¬(((Rgba.new 0 0 0 255).blend (Rgba.new 255 255 255 255) 128).red = 128 ∧
      ((Rgba.new 0 0 0 255).blend (Rgba.new 255 255 255 255) 128).green = 128 ∧
      ((Rgba.new 0 0 0 255).blend (Rgba.new 255 255 255 255) 128).blue = 128) := by
  decide

/-- C4 (amended): blending `(0,0,0,255)` with `(255,255,255,255)` at
proportion 128 yields red = green = blue = 127, since
`(255*128 + 0*127 + 1) >> 8 = 32641 >> 8 = 127`. -/
theorem blend_midpoint_is_127 :
    ((Rgba.new 0 0 0 255).blend (Rgba.new 255 255 255 255) 128).red = 127 ∧
    ((Rgba.new 0 0 0 255).blend (Rgba.new 255 255 255 255) 128).green = 127 ∧
    ((Rgba.new 0 0 0 255).blend (Rgba.new 255 255 255 255) 128).blue = 127 := by
  decide

/-- C7: for all channel bytes, the packed 32-bit form of
`Rgba::new(r, g, b, a)` is exactly `(a<<24)|(r<<16)|(g<<8)|b`, and
unpacking that integer reproduces the original color. -/
theorem packed_u32_roundtrip (r g b a : Nat)
    (hr : r < 256) (hg : g < 256) (hb : b < 256) (ha : a < 256) :
    (Rgba.new r g b a).toU32 = (a <<< 24) ||| (r <<< 16) ||| (g <<< 8) ||| b ∧
    Rgba.ofU32 (Rgba.new r g b a).toU32 = Rgba.new r g b a := by
  constructor
  · have e1 : (a <<< 24) ||| (r <<< 16) = a * 2 ^ 24 + r * 2 ^ 16 := by
      have hlt : r <<< 16 < 2 ^ 24 := by rw [Nat.shiftLeft_eq]; omega
      rw [shiftLeft_lor_eq_add a 24 _ hlt, Nat.shiftLeft_eq]
    have e2 : (a * 2 ^ 24 + r * 2 ^ 16) ||| (g <<< 8) =
        a * 2 ^ 24 + r * 2 ^ 16 + g * 2 ^ 8 := by
      have h1 : a * 2 ^ 24 + r * 2 ^ 16 = (a * 2 ^ 8 + r) <<< 16 := by
        rw [Nat.shiftLeft_eq]; ring
      have hlt : g <<< 8 < 2 ^ 16 := by rw [Nat.shiftLeft_eq]; omega
      rw [h1, shiftLeft_lor_eq_add _ 16 _ hlt, Nat.shiftLeft_eq, Nat.shiftLeft_eq]
    have e3 : (a * 2 ^ 24 + r * 2 ^ 16 + g * 2 ^ 8) ||| b =
        a * 2 ^ 24 + r * 2 ^ 16 + g * 2 ^ 8 + b := by
      have h1 : a * 2 ^ 24 + r * 2 ^ 16 + g * 2 ^ 8 =
          (a * 2 ^ 16 + r * 2 ^ 8 + g) <<< 8 := by
        rw [Nat.shiftLeft_eq]; ring
      have hlt : b < 2 ^ 8 := by omega
      rw [h1, shiftLeft_lor_eq_add _ 8 _ hlt, Nat.shiftLeft_eq]
    rw [e1, e2, e3]
    show b + g * 2 ^ 8 + r * 2 ^ 16 + a * 2 ^ 24 = _
    ring
  · show Rgba.ofU32 (b + g * 2 ^ 8 + r * 2 ^ 16 + a * 2 ^ 24) = _
    unfold Rgba.ofU32 Rgba.new
    rw [Rgba.mk.injEq]
    refine ⟨?_, ?_, ?_, ?_⟩ <;> omega

/-- Witness for C7 at the concrete bytes `(1, 2, 3, 4)`. -/
theorem packed_u32_roundtrip_witness :
    1 < 256 ∧ 2 < 256 ∧ 3 < 256 ∧ 4 < 256 ∧
    ((Rgba.new 1 2 3 4).toU32 = (4 <<< 24) ||| (1 <<< 16) ||| (2 <<< 8) ||| 3 ∧
     Rgba.ofU32 (Rgba.new 1 2 3 4).toU32 = Rgba.new 1 2 3 4) :=
  ⟨by decide, by decide, by decide, by decide,
    packed_u32_roundtrip 1 2 3 4 (by decide) (by decide) (by decide) (by decide)⟩

/-- `fn hex_code_to_u4(c: char) -> Option<u8>` from src/rgba.rs. -/
def hex_code_to_u4 (c : Char) : Option Nat :=
  match c with
  | 'F' | 'f' => some 15
  | 'E' | 'e' => some 14
  | 'D' | 'd' => some 13
  | 'C' | 'c' => some 12
  | 'B' | 'b' => some 11
  | 'A' | 'a' => some 10
  | '9' => some 9
  | '8' => some 8
  | '7' => some 7
  | '6' => some 6
  | '5' => some 5
  | '4' => some 4
  | '3' => some 3
  | '2' => some 2
  | '1' => some 1
  | '0' => some 0
  | _ => none

/-- `fn hex_code_to_u8(chars: [char; 2]) -> Option<u8>` from src/rgba.rs:
`hex_code_to_u4(chars[0])? * 16 + hex_code_to_u4(chars[1])?`. -/
def hex_code_to_u8 (c1 c2 : Char) : Option Nat :=
  match hex_code_to_u4 c1, hex_code_to_u4 c2 with
  | some n1, some n2 => some (n1 * 16 + n2)
  | _, _ => none

/-- `enum CharsToRgbaError` from src/rgba.rs. -/
inductive CharsToRgbaError where
  | InvalidStr : String → CharsToRgbaError
  | InsufficientLength : Nat → CharsToRgbaError
deriving DecidableEq, Repr

/-- One iteration of the `for i in 0..4` loop of
`TryFrom<Chars> for Rgba` (src/rgba.rs): reads up to two characters and
produces the byte `out[i]` together with the remaining characters, or the
error the loop returns. At `i = 3` (the alpha pair) an incomplete or
non-hex pair yields `0xFF` instead of an error. -/
def tryFromStep (i : Nat) (cs : List Char) : Except CharsToRgbaError (Nat × List Char) :=
  match cs with
  | c1 :: c2 :: rest =>
    match hex_code_to_u8 c1 c2 with
    | some n => .ok (n, rest)
    | none =>
      if i ≠ 3 then .error (.InvalidStr (String.mk [c1, c2]))
      else .ok (255, rest)
  | [_] =>
    if i ≠ 3 then .error (.InsufficientLength (i * 2 + 1))
    else .ok (255, [])
  | [] =>
    if i ≠ 3 then .error (.InsufficientLength (i * 2))
    else .ok (255, [])

/-- `TryFrom<Chars> for Rgba` (src/rgba.rs): the four loop iterations,
then `Ok(Self::new(num[0], num[1], num[2], num[3]))`. -/
def tryFrom (cs : List Char) : Except CharsToRgbaError Rgba :=
  match tryFromStep 0 cs with
  | .error e => .error e
  | .ok (n0, cs1) =>
    match tryFromStep 1 cs1 with
    | .error e => .error e
    | .ok (n1, cs2) =>
      match tryFromStep 2 cs2 with
      | .error e => .error e
      | .ok (n2, cs3) =>
        match tryFromStep 3 cs3 with
        | .error e => .error e
        | .ok (n3, _) => .ok (Rgba.new n0 n1 n2 n3)

/-- Every complete two-character pair of the input is valid hex (a
dangling final character is not checked). -/
def completePairsValid : List Char → Bool
  | c1 :: c2 :: rest => (hex_code_to_u8 c1 c2).isSome && completePairsValid rest
  | _ => true

/-- C5 counterexample: the input `"GG"` has fewer than 6 characters, yet
parsing fails with `InvalidStr "GG"`, not with `InsufficientLength`, so
"fails with InsufficientLength(n) exactly when fewer than 6 characters
are available" is false in the right-to-left direction. -/
theorem hex_parse_short_invalid_not_insufficient :
    tryFrom ['G', 'G'] = .error (.InvalidStr "GG") ∧
    (['G', 'G'] : List Char).length < 6 :=
  ⟨rfl, by decide⟩

/-- C5 (amended): parsing `"12345"` fails with `InsufficientLength 5`
and parsing `"GGRRBB"` fails with `InvalidHexDigit` (`InvalidStr`)
reporting `"GG"`; in general, parsing fails with `InsufficientLength n`
exactly when fewer than 6 characters are available AND every complete
leading pair is valid hex (an invalid complete pair fails with
`InvalidStr` first), and then `n` equals the count of characters
available (complete bytes times two, plus one for a dangling character). -/
theorem hex_parse_failure_modes :
    tryFrom ['1', '2', '3', '4', '5'] = .error (.InsufficientLength 5) ∧
    tryFrom ['G', 'G', 'R', 'R', 'B', 'B'] = .error (.InvalidStr "GG") ∧
    ∀ (cs : List Char) (n : Nat),
      tryFrom cs = .error (.InsufficientLength n) ↔
        (cs.length < 6 ∧ completePairsValid cs = true ∧ n = cs.length) := by
  refine ⟨rfl, rfl, ?_⟩
  intro cs n
  rcases cs with _ | ⟨a, _ | ⟨b, _ | ⟨c, _ | ⟨d, _ | ⟨e, _ | ⟨f, rest⟩⟩⟩⟩⟩⟩
  · simp [tryFrom, tryFromStep, completePairsValid]; omega
  · simp [tryFrom, tryFromStep, completePairsValid]; omega
  · rcases h1 : hex_code_to_u8 a b with _ | v1
    · simp [tryFrom, tryFromStep, completePairsValid, h1]
    · simp [tryFrom, tryFromStep, completePairsValid, h1]; omega
  · rcases h1 : hex_code_to_u8 a b with _ | v1
    · simp [tryFrom, tryFromStep, completePairsValid, h1]
    · simp [tryFrom, tryFromStep, completePairsValid, h1]; omega
  · rcases h1 : hex_code_to_u8 a b with _ | v1
    · simp [tryFrom, tryFromStep, completePairsValid, h1]
    · rcases h2 : hex_code_to_u8 c d with _ | v2
      · simp [tryFrom, tryFromStep, completePairsValid, h1, h2]
      · simp [tryFrom, tryFromStep, completePairsValid, h1, h2]; omega
  · rcases h1 : hex_code_to_u8 a b with _ | v1
    · simp [tryFrom, tryFromStep, completePairsValid, h1]
    · rcases h2 : hex_code_to_u8 c d with _ | v2
      · simp [tryFrom, tryFromStep, completePairsValid, h1, h2]
      · simp [tryFrom, tryFromStep, completePairsValid, h1, h2]; omega
  · rcases h1 : hex_code_to_u8 a b with _ | v1
    · simp [tryFrom, tryFromStep, completePairsValid, h1]
    · rcases h2 : hex_code_to_u8 c d with _ | v2
      · simp [tryFrom, tryFromStep, completePairsValid, h1, h2]
      · rcases h3 : hex_code_to_u8 e f with _ | v3
        · simp [tryFrom, tryFromStep, completePairsValid, h1, h2, h3]
        · rcases rest with _ | ⟨g, _ | ⟨h, rest2⟩⟩
          · simp [tryFrom, tryFromStep, h1, h2, h3]
          · simp [tryFrom, tryFromStep, h1, h2, h3]
          · rcases h4 : hex_code_to_u8 g h with _ | v4
            · simp [tryFrom, tryFromStep, h1, h2, h3, h4]
            · simp [tryFrom, tryFromStep, h1, h2, h3, h4]

/-- C6: a sequence of exactly 6 valid hex characters parses to the color
whose red, green, blue bytes come from the three pairs in that order with
alpha 255; with 8 valid hex characters the fourth pair gives the alpha. -/
theorem hex_parse_success (c1 c2 c3 c4 c5 c6 : Char) (r g b : Nat)
    (h1 : hex_code_to_u8 c1 c2 = some r)
    (h2 : hex_code_to_u8 c3 c4 = some g)
    (h3 : hex_code_to_u8 c5 c6 = some b) :
    tryFrom [c1, c2, c3, c4, c5, c6] = .ok (Rgba.new r g b 255) ∧
    ∀ c7 c8 a, hex_code_to_u8 c7 c8 = some a →
      tryFrom [c1, c2, c3, c4, c5, c6, c7, c8] = .ok (Rgba.new r g b a) := by
  constructor
  · simp [tryFrom, tryFromStep, h1, h2, h3]
  · intro c7 c8 a h4
    simp [tryFrom, tryFromStep, h1, h2, h3, h4]

/-- Witness for C6 on the input `"12345678"`. -/
theorem hex_parse_success_witness :
    hex_code_to_u8 '1' '2' = some 18 ∧
    hex_code_to_u8 '3' '4' = some 52 ∧
    hex_code_to_u8 '5' '6' = some 86 ∧
    (tryFrom ['1', '2', '3', '4', '5', '6'] = .ok (Rgba.new 18 52 86 255) ∧
     ∀ c7 c8 a, hex_code_to_u8 c7 c8 = some a →
       tryFrom ['1', '2', '3', '4', '5', '6', c7, c8] = .ok (Rgba.new 18 52 86 a)) :=
  ⟨rfl, rfl, rfl, hex_parse_success '1' '2' '3' '4' '5' '6' 18 52 86 rfl rfl rfl⟩

/-- C10: when the first three pairs are valid hex, parsing also succeeds
when the alpha pair is incomplete (7 characters) or contains a non-hex
character (8 characters with an invalid fourth pair): no `InvalidStr`
error is raised for the alpha pair and the resulting alpha is 255. -/
theorem hex_parse_alpha_lenient (c1 c2 c3 c4 c5 c6 c7 : Char) (r g b : Nat)
    (h1 : hex_code_to_u8 c1 c2 = some r)
    (h2 : hex_code_to_u8 c3 c4 = some g)
    (h3 : hex_code_to_u8 c5 c6 = some b) :
    tryFrom [c1, c2, c3, c4, c5, c6, c7] = .ok (Rgba.new r g b 255) ∧
    ∀ c8 c9, hex_code_to_u8 c8 c9 = none →
      tryFrom [c1, c2, c3, c4, c5, c6, c8, c9] = .ok (Rgba.new r g b 255) := by
  constructor
  · simp [tryFrom, tryFromStep, h1, h2, h3]
  · intro c8 c9 h4
    simp [tryFrom, tryFromStep, h1, h2, h3, h4]

/-- Witness for C10 on the input `"1234567"`. -/
theorem hex_parse_alpha_lenient_witness :
    hex_code_to_u8 '1' '2' = some 18 ∧
    hex_code_to_u8 '3' '4' = some 52 ∧
    hex_code_to_u8 '5' '6' = some 86 ∧
    (tryFrom ['1', '2', '3', '4', '5', '6', '7'] = .ok (Rgba.new 18 52 86 255) ∧
     ∀ c8 c9, hex_code_to_u8 c8 c9 = none →
       tryFrom ['1', '2', '3', '4', '5', '6', c8, c9] = .ok (Rgba.new 18 52 86 255)) :=
  ⟨rfl, rfl, rfl, hex_parse_alpha_lenient '1' '2' '3' '4' '5' '6' '7' 18 52 86 rfl rfl rfl⟩

/-!
The `Canvas` of src/canvas.rs: a softbuffer pixel buffer of `u32` values
together with the `NonZeroU32` width and height. The buffer is modelled
as a `List Nat` of packed 32-bit color values; drawing writes
`color.into()`, i.e. `Rgba.toU32`.
-/

/-- `struct Canvas` from src/canvas.rs. -/
structure Canvas where
  buffer : List Nat
  width : Nat
  height : Nat
deriving DecidableEq, Repr

/-- `enum ImageCompletion` from src/canvas.rs. -/
inductive ImageCompletion where
  | None
  | Partial
  | Complete
deriving DecidableEq, Repr

/-- `struct MonoImage` from src/canvas.rs (its `ColorRect<u8, u8>`
implementation exposes `bytes`, `width`, `height`). -/
structure MonoImage where
  bytes : List Nat
  width : Nat
  height : Nat
deriving DecidableEq, Repr

/-- The per-iteration cursor update shared by `draw_image`,
`draw_monochrome_image` and `draw_rectangle` (src/canvas.rs): from
position `(gx, gy)`, if `gx == w + x - 1` wrap to `(x, gy + 1)`,
otherwise move to `(gx + 1, gy)`. For the image blits `w` is the image
width; for `draw_rectangle` it is `rect_width`. -/
def advance (w x : Int) (p : Int × Int) : Int × Int :=
  if p.1 = w + x - 1 then (x, p.2 + 1) else (p.1 + 1, p.2)

/-- The cursor position after `i` iterations starting from `p`. -/
def posFrom (w x : Int) : Nat → Int × Int → Int × Int
  | 0, p => p
  | i + 1, p => posFrom w x i (advance w x p)

/-- The color chosen for a monochrome byte in `draw_monochrome_image`:
`0 => black`, `255 => white`, `b => black.blend(white, b)`. -/
def monoColor (black white : Rgba) (b : Nat) : Rgba :=
  if b = 0 then black else if b = 255 then white else black.blend white b

/-- The `for counter in 0..image.get_bytes().len()` loop of
`Canvas::draw_monochrome_image` (src/canvas.rs): state is the cursor
`(gx, gy)`, the completion accumulator and the buffer. A pixel is
written only when `gx >= 0 && gy >= 0 && gx < wx && gy < wy`; when
`gx >= 0 && gy >= 0` holds but the pixel is beyond the width/height
bound, the completion is downgraded to `Partial`; when `gx` or `gy` is
negative the pixel is skipped with no downgrade. -/
def monoLoop (wx wy : Int) (imgw : Nat) (x : Int) (black white : Rgba) :
    List Nat → (Int × Int) × ImageCompletion × List Nat → ImageCompletion × List Nat
  | [], (_, comp, buf) => (comp, buf)
  | byte :: rest, (p, comp, buf) =>
    if 0 ≤ p.1 ∧ 0 ≤ p.2 then
      if p.1 < wx ∧ p.2 < wy then
        monoLoop wx wy imgw x black white rest
          (advance (imgw : Int) x p, comp,
           buf.set (p.2 * wx + p.1).toNat (monoColor black white byte).toU32)
      else
        monoLoop wx wy imgw x black white rest
          (advance (imgw : Int) x p, ImageCompletion.Partial, buf)
    else
      monoLoop wx wy imgw x black white rest (advance (imgw : Int) x p, comp, buf)

/-- `Canvas::draw_monochrome_image` (src/canvas.rs): fast reject with
`None` when `wx < x || wy < y`, otherwise run the pixel loop starting
from `(x, y)` with completion `Complete`. -/
def Canvas.draw_monochrome_image (c : Canvas) (x y : Int) (img : MonoImage)
    (black white : Rgba) : ImageCompletion × Canvas :=
  if (c.width : Int) < x ∨ (c.height : Int) < y then (ImageCompletion.None, c)
  else
    let r := monoLoop (c.width : Int) (c.height : Int) img.width x black white
      img.bytes ((x, y), ImageCompletion.Complete, c.buffer)
    (r.1, { c with buffer := r.2 })

/-- A cursor position with nonnegative coordinates that lies beyond the
width/height bound: exactly the condition under which the loop body of
`draw_monochrome_image` downgrades the completion to `Partial`. -/
def clippedBeyond (wx wy : Int) (p : Int × Int) : Prop :=
  0 ≤ p.1 ∧ 0 ≤ p.2 ∧ ¬(p.1 < wx ∧ p.2 < wy)

instance (wx wy : Int) (p : Int × Int) : Decidable (clippedBeyond wx wy p) := by
  unfold clippedBeyond; infer_instance

lemma forall_posFrom_succ (w x : Int) (P : Int × Int → Prop) (p : Int × Int) (n : Nat) :
    (∀ i < n + 1, P (posFrom w x i p)) ↔
      P p ∧ ∀ i < n, P (posFrom w x i (advance w x p)) := by
  constructor
  · intro h
    exact ⟨h 0 (by omega), fun i hi => h (i + 1) (by omega)⟩
  · rintro ⟨h0, h⟩ i hi
    cases i with
    | zero => exact h0
    | succ j => exact h j (by omega)

lemma monoLoop_comp_complete (wx wy : Int) (imgw : Nat) (x : Int) (black white : Rgba) :
    ∀ (bytes : List Nat) (p : Int × Int) (comp : ImageCompletion) (buf : List Nat),
      (monoLoop wx wy imgw x black white bytes (p, comp, buf)).1 = ImageCompletion.Complete ↔
        (comp = ImageCompletion.Complete ∧
         ∀ i < bytes.length, ¬ clippedBeyond wx wy (posFrom (imgw : Int) x i p)) := by
  intro bytes
  induction bytes with
  | nil =>
    intro p comp buf
    simp [monoLoop]
  | cons byte rest ih =>
    intro p comp buf
    have hsplit := forall_posFrom_succ (imgw : Int) x
      (fun q => ¬ clippedBeyond wx wy q) p rest.length
    by_cases hneg : 0 ≤ p.1 ∧ 0 ≤ p.2
    · by_cases hin : p.1 < wx ∧ p.2 < wy
      · have hclip : ¬ clippedBeyond wx wy p := by
          unfold clippedBeyond; tauto
        simp only [monoLoop, hneg, hin, and_self, ite_true, List.length_cons]
        rw [ih, hsplit]
        tauto
      · have hclip : clippedBeyond wx wy p := ⟨hneg.1, hneg.2, hin⟩
        simp only [monoLoop, hneg, hin, and_self, ite_true, ite_false, List.length_cons]
        rw [ih, hsplit]
        constructor
        · rintro ⟨hc, _⟩
          cases hc
        · rintro ⟨_, hnc, _⟩
          exact absurd hclip hnc
    · have hclip : ¬ clippedBeyond wx wy p := by
        unfold clippedBeyond; tauto
      simp only [monoLoop, hneg, ite_false, List.length_cons]
      rw [ih, hsplit]
      tauto

lemma monoLoop_comp_cases (wx wy : Int) (imgw : Nat) (x : Int) (black white : Rgba) :
    ∀ (bytes : List Nat) (p : Int × Int) (comp : ImageCompletion) (buf : List Nat),
      (monoLoop wx wy imgw x black white bytes (p, comp, buf)).1 = comp ∨
      (monoLoop wx wy imgw x black white bytes (p, comp, buf)).1 = ImageCompletion.Partial := by
  intro bytes
  induction bytes with
  | nil => intro p comp buf; left; simp [monoLoop]
  | cons byte rest ih =>
    intro p comp buf
    by_cases hneg : 0 ≤ p.1 ∧ 0 ≤ p.2
    · by_cases hin : p.1 < wx ∧ p.2 < wy
      · simp only [monoLoop, hneg, hin, and_self, ite_true]
        exact ih _ _ _
      · simp only [monoLoop, hneg, hin, and_self, ite_true, ite_false]
        rcases ih (advance (imgw : Int) x p) ImageCompletion.Partial buf with h | h
        · right; exact h
        · right; exact h
    · simp only [monoLoop, hneg, ite_false]
      exact ih _ _ _

/-- C1 counterexample: on a 2x2 surface, drawing a 1x1 monochrome image
at `(-1, 0)` returns `Complete` even though its only pixel has a
negative surface x-coordinate and so was clipped, never drawn: a
clipped pixel with a negative coordinate does not downgrade the result. -/
theorem draw_monochrome_negative_clip_stays_complete :
    ((⟨[0, 0, 0, 0], 2, 2⟩ : Canvas).draw_monochrome_image (-1) 0
        ⟨[0], 1, 1⟩ Rgba.BLACK Rgba.WHITE).1 = ImageCompletion.Complete ∧
    (posFrom ((1 : Nat) : Int) (-1) 0 ((-1 : Int), (0 : Int))).1 < 0 := by
  constructor
  · rfl
  · decide

/-- C1 (amended): when `draw_monochrome_image` does not take the
fast-reject `None` path, the returned completion is `Complete` iff no
image pixel lands on a position with nonnegative coordinates that is
beyond the width/height bound; a pixel whose surface coordinate is
negative is skipped without downgrading the result. The result is only
ever `Complete` or `Partial` (never downgraded further after the first
clipped pixel). -/
theorem draw_monochrome_completion (c : Canvas) (x y : Int) (img : MonoImage)
    (black white : Rgba) (h : ¬((c.width : Int) < x ∨ (c.height : Int) < y)) :
    ((c.draw_monochrome_image x y img black white).1 = ImageCompletion.Complete ↔
      ∀ i < img.bytes.length,
        ¬ clippedBeyond (c.width : Int) (c.height : Int)
            (posFrom (img.width : Int) x i (x, y))) ∧
    ((c.draw_monochrome_image x y img black white).1 = ImageCompletion.Complete ∨
     (c.draw_monochrome_image x y img black white).1 = ImageCompletion.Partial) := by
  unfold Canvas.draw_monochrome_image
  rw [if_neg h]
  constructor
  · simp only [Prod.fst]
    rw [monoLoop_comp_complete]
    simp
  · simp only [Prod.fst]
    exact monoLoop_comp_cases _ _ _ _ _ _ _ _ _ _

/-- Witness for C1: a 2x1 image drawn at `(1, 0)` on a 2x2 surface; its
second pixel lands at `(2, 0)`, nonnegative but beyond the width bound,
so the completion is `Partial` and the iff holds concretely. -/
theorem draw_monochrome_completion_witness :
    ¬(((⟨[0, 0, 0, 0], 2, 2⟩ : Canvas).width : Int) < 1 ∨
      ((⟨[0, 0, 0, 0], 2, 2⟩ : Canvas).height : Int) < 0) ∧
    ((((⟨[0, 0, 0, 0], 2, 2⟩ : Canvas).draw_monochrome_image 1 0
          ⟨[5, 7], 2, 1⟩ Rgba.BLACK Rgba.WHITE).1 = ImageCompletion.Complete ↔
        ∀ i < (⟨[5, 7], 2, 1⟩ : MonoImage).bytes.length,
          ¬ clippedBeyond ((⟨[0, 0, 0, 0], 2, 2⟩ : Canvas).width : Int)
              ((⟨[0, 0, 0, 0], 2, 2⟩ : Canvas).height : Int)
              (posFrom ((⟨[5, 7], 2, 1⟩ : MonoImage).width : Int) 1 i (1, 0))) ∧
     (((⟨[0, 0, 0, 0], 2, 2⟩ : Canvas).draw_monochrome_image 1 0
          ⟨[5, 7], 2, 1⟩ Rgba.BLACK Rgba.WHITE).1 = ImageCompletion.Complete ∨
      ((⟨[0, 0, 0, 0], 2, 2⟩ : Canvas).draw_monochrome_image 1 0
          ⟨[5, 7], 2, 1⟩ Rgba.BLACK Rgba.WHITE).1 = ImageCompletion.Partial)) :=
  ⟨by decide, draw_monochrome_completion _ 1 0 _ Rgba.BLACK Rgba.WHITE (by decide)⟩

/-- C9: when the origin fails the fast-reject comparison
(`width < x || height < y`), `draw_monochrome_image` returns `None`
with the canvas, in particular its pixel buffer, unchanged. -/
theorem draw_monochrome_fast_reject (c : Canvas) (x y : Int) (img : MonoImage)
    (black white : Rgba) (h : (c.width : Int) < x ∨ (c.height : Int) < y) :
    c.draw_monochrome_image x y img black white = (ImageCompletion.None, c) := by
  unfold Canvas.draw_monochrome_image
  rw [if_pos h]

/-- Witness for C9: drawing at `(1000, 1000)` on a 20x20 surface returns
`None` and leaves the 400-cell buffer unchanged. -/
theorem draw_monochrome_fast_reject_witness :
    (((⟨List.replicate 400 0, 20, 20⟩ : Canvas).width : Int) < 1000 ∨
     ((⟨List.replicate 400 0, 20, 20⟩ : Canvas).height : Int) < 1000) ∧
    (⟨List.replicate 400 0, 20, 20⟩ : Canvas).draw_monochrome_image 1000 1000
        ⟨[5], 1, 1⟩ Rgba.BLACK Rgba.WHITE =
      (ImageCompletion.None, (⟨List.replicate 400 0, 20, 20⟩ : Canvas)) :=
  ⟨by decide, draw_monochrome_fast_reject _ 1000 1000 _ Rgba.BLACK Rgba.WHITE (by decide)⟩

/-- The `for _ in 0..(rect_width * rect_height)` loop of
`Canvas::draw_rectangle` (src/canvas.rs): `n` remaining iterations from
cursor `p`; a cell is written when `gx >= 0 && gy >= 0 && gx < wx && gy < wy`,
and the cursor advances with wrap column `rw + x - 1`. -/
def rectLoop (wx wy rw x : Int) (col : Nat) : Nat → (Int × Int) × List Nat → List Nat
  | 0, (_, buf) => buf
  | n + 1, (p, buf) =>
    if 0 ≤ p.1 ∧ 0 ≤ p.2 ∧ p.1 < wx ∧ p.2 < wy then
      rectLoop wx wy rw x col n (advance rw x p, buf.set (p.2 * wx + p.1).toNat col)
    else
      rectLoop wx wy rw x col n (advance rw x p, buf)

/-- `Canvas::draw_rectangle(x, y, rect_width, rect_height, color)` from
src/canvas.rs: `rect_width * rect_height` iterations starting at `(x, y)`
(a nonpositive product gives zero iterations, as in Rust's `0..n`). -/
def Canvas.draw_rectangle (c : Canvas) (x y rw rh : Int) (color : Rgba) : Canvas :=
  { c with
    buffer :=
      rectLoop (c.width : Int) (c.height : Int) rw x color.toU32
        (rw * rh).toNat ((x, y), c.buffer) }

/-- The loop body of `draw_rectangle` writes buffer cell `j` at cursor
position `p`: the position is in bounds and its linear index is `j`. -/
def writesTo (wx wy : Int) (p : Int × Int) (j : Nat) : Prop :=
  (0 ≤ p.1 ∧ 0 ≤ p.2 ∧ p.1 < wx ∧ p.2 < wy) ∧ (p.2 * wx + p.1).toNat = j

instance (wx wy : Int) (p : Int × Int) (j : Nat) : Decidable (writesTo wx wy p j) := by
  unfold writesTo; infer_instance

lemma rectLoop_getElem_of_no_hit (wx wy rw x : Int) (col : Nat) :
    ∀ (n : Nat) (p : Int × Int) (buf : List Nat) (j : Nat),
      (∀ i < n, ¬ writesTo wx wy (posFrom rw x i p) j) →
      (rectLoop wx wy rw x col n (p, buf))[j]? = buf[j]? := by
  intro n
  induction n with
  | zero => intro p buf j _; rfl
  | succ m ih =>
    intro p buf j h
    have h0 : ¬ writesTo wx wy p j := h 0 (by omega)
    have hrest : ∀ i < m, ¬ writesTo wx wy (posFrom rw x i (advance rw x p)) j :=
      fun i hi => h (i + 1) (by omega)
    by_cases hb : 0 ≤ p.1 ∧ 0 ≤ p.2 ∧ p.1 < wx ∧ p.2 < wy
    · have hne : (p.2 * wx + p.1).toNat ≠ j := fun he => h0 ⟨hb, he⟩
      simp only [rectLoop]
      rw [if_pos hb, ih _ _ _ hrest]
      exact List.getElem?_set_ne hne
    · simp only [rectLoop]
      rw [if_neg hb]
      exact ih _ _ _ hrest

lemma rectLoop_getElem_of_hit (wx wy rw x : Int) (col : Nat) :
    ∀ (n : Nat) (p : Int × Int) (buf : List Nat) (j : Nat),
      j < buf.length →
      (∃ i, i < n ∧ writesTo wx wy (posFrom rw x i p) j) →
      (rectLoop wx wy rw x col n (p, buf))[j]? = some col := by
  intro n
  induction n with
  | zero =>
    rintro p buf j _ ⟨i, hi, _⟩
    omega
  | succ m ih =>
    intro p buf j hj hex
    by_cases hrest : ∃ i, i < m ∧ writesTo wx wy (posFrom rw x i (advance rw x p)) j
    · by_cases hb : 0 ≤ p.1 ∧ 0 ≤ p.2 ∧ p.1 < wx ∧ p.2 < wy
      · simp only [rectLoop]
        rw [if_pos hb]
        exact ih _ _ _ (by simpa using hj) hrest
      · simp only [rectLoop]
        rw [if_neg hb]
        exact ih _ _ _ hj hrest
    · obtain ⟨i, hi, hw⟩ := hex
      cases i with
      | succ k => exact absurd ⟨k, by omega, hw⟩ hrest
      | zero =>
        have hw0 : writesTo wx wy p j := hw
        have hb : 0 ≤ p.1 ∧ 0 ≤ p.2 ∧ p.1 < wx ∧ p.2 < wy := hw0.1
        simp only [rectLoop]
        rw [if_pos hb, rectLoop_getElem_of_no_hit wx wy rw x col m _ _ j
          (fun i hi hwi => hrest ⟨i, hi, hwi⟩)]
        rw [hw0.2]
        exact List.getElem?_set_self hj

lemma posFrom_succ_last (w x : Int) (i : Nat) (p : Int × Int) :
    posFrom w x (i + 1) p = advance w x (posFrom w x i p) := by
  induction i generalizing p with
  | zero => rfl
  | succ j ih =>
    show posFrom w x (j + 1) (advance w x p) = advance w x (posFrom w x (j + 1) p)
    rw [ih (advance w x p)]
    rfl

lemma succ_mod_div_of_mod_eq_sub_one (rwn i : Nat) (hrw : 0 < rwn)
    (h : i % rwn = rwn - 1) :
    (i + 1) % rwn = 0 ∧ (i + 1) / rwn = i / rwn + 1 := by
  have hdm := Nat.div_add_mod i rwn
  have hi1 : i + 1 = rwn * (i / rwn + 1) := by
    rw [Nat.mul_succ]; omega
  rw [hi1, Nat.mul_mod_right, Nat.mul_div_cancel_left _ hrw]
  exact ⟨rfl, rfl⟩

lemma succ_mod_div_of_mod_ne (rwn i : Nat) (hrw : 0 < rwn)
    (h : ¬(i % rwn = rwn - 1)) :
    (i + 1) % rwn = i % rwn + 1 ∧ (i + 1) / rwn = i / rwn := by
  have hdm := Nat.div_add_mod i rwn
  have hlt := Nat.mod_lt i hrw
  have hi1 : i + 1 = (i % rwn + 1) + rwn * (i / rwn) := by omega
  constructor
  · rw [hi1, Nat.add_mul_mod_self_left]
    exact Nat.mod_eq_of_lt (by omega)
  · rw [hi1, Nat.add_mul_div_left _ _ hrw, Nat.div_eq_of_lt (by omega), Nat.zero_add]

lemma posFrom_closed (rwn : Nat) (hrw : 0 < rwn) (x y0 : Int) :
    ∀ i : Nat, posFrom (rwn : Int) x i (x, y0) =
      (x + ((i % rwn : Nat) : Int), y0 + ((i / rwn : Nat) : Int)) := by
  intro i
  induction i with
  | zero =>
    simp [posFrom, Nat.zero_mod, Nat.zero_div]
  | succ i ih =>
    rw [posFrom_succ_last, ih]
    unfold advance
    by_cases hmod : i % rwn = rwn - 1
    · have hcond : x + ((i % rwn : Nat) : Int) = (rwn : Int) + x - 1 := by
        rw [hmod]; omega
      rw [if_pos (by exact hcond)]
      obtain ⟨h1, h2⟩ := succ_mod_div_of_mod_eq_sub_one rwn i hrw hmod
      rw [h1, h2]
      rw [Prod.ext_iff]
      refine ⟨?_, ?_⟩ <;> simp <;> omega
    · have hcond : ¬(x + ((i % rwn : Nat) : Int) = (rwn : Int) + x - 1) := by
        intro he
        apply hmod
        have hlt := Nat.mod_lt i hrw
        omega
      rw [if_neg (by exact hcond)]
      obtain ⟨h1, h2⟩ := succ_mod_div_of_mod_ne rwn i hrw hmod
      rw [h1, h2]
      rw [Prod.ext_iff]
      refine ⟨?_, ?_⟩ <;> simp <;> omega

lemma euclid_unique (W j gxn gyn : Nat) (hW : 0 < W) (hgx : gxn < W)
    (hj : j = gyn * W + gxn) :
    j % W = gxn ∧ j / W = gyn := by
  subst hj
  rw [Nat.mul_comm]
  constructor
  · rw [Nat.mul_add_mod]
    exact Nat.mod_eq_of_lt hgx
  · rw [Nat.mul_add_div hW, Nat.div_eq_of_lt hgx, Nat.add_zero]

lemma index_lt_prod (rwn rhn dx dy : Nat) (h1 : dx < rwn) (h2 : dy < rhn) :
    dy * rwn + dx < rwn * rhn := by
  have h3 : dy * rwn + dx < (dy + 1) * rwn := by
    rw [Nat.succ_mul]; omega
  have h4 : (dy + 1) * rwn ≤ rhn * rwn := Nat.mul_le_mul_right _ (by omega)
  calc dy * rwn + dx < (dy + 1) * rwn := h3
    _ ≤ rhn * rwn := h4
    _ = rwn * rhn := Nat.mul_comm _ _

lemma div_lt_of_lt_prod (rwn rhn i : Nat) (hrw : 0 < rwn) (hi : i < rwn * rhn) :
    i / rwn < rhn := by
  rw [Nat.div_lt_iff_lt_mul hrw]
  rw [Nat.mul_comm]; exact hi

/-- C8 counterexample: with both dimensions negative the product
`rect_width * rect_height` is positive, so the loop runs and writes cells
outside the (empty) rectangle: `draw_rectangle(0, 0, -1, -1)` on a 2x2
surface overwrites cell 0 even though no cell `(cx, cy)` satisfies
`0 <= cx < 0 + (-1)`. -/
theorem draw_rectangle_negative_dims_writes :
    ((⟨[1, 1, 1, 1], 2, 2⟩ : Canvas).draw_rectangle 0 0 (-1) (-1)
        (Rgba.new 0 0 9 0)).buffer[0]? = some 9 ∧
    (⟨[1, 1, 1, 1], 2, 2⟩ : Canvas).buffer[0]? = some 1 ∧
    ¬((0 : Int) < 0 + (-1)) := by
  refine ⟨?_, ?_, ?_⟩ <;> decide

/-- C8 (amended): provided the two rectangle dimensions are not both
negative, `draw_rectangle` writes the color exactly to the buffer cells
whose surface coordinates `(j mod width, j div width)` lie inside the
rectangle `[x, x + rect_width) x [y, y + rect_height)` (such cells are
automatically inside `[0, width) x [0, height)`), and leaves every other
buffer cell unchanged. -/
theorem draw_rectangle_writes (c : Canvas) (x y rw rh : Int) (color : Rgba) (j : Nat)
    (hW : 0 < c.width) (hH : 0 < c.height)
    (hlen : c.buffer.length = c.width * c.height)
    (hdim : 0 ≤ rw ∨ 0 ≤ rh)
    (hj : j < c.buffer.length) :
    (c.draw_rectangle x y rw rh color).buffer[j]? =
      if x ≤ ((j % c.width : Nat) : Int) ∧ ((j % c.width : Nat) : Int) < x + rw ∧
         y ≤ ((j / c.width : Nat) : Int) ∧ ((j / c.width : Nat) : Int) < y + rh
      then some color.toU32 else c.buffer[j]? := by
  unfold Canvas.draw_rectangle
  by_cases hmain : 1 ≤ rw ∧ 1 ≤ rh
  · obtain ⟨hrw1, hrh1⟩ := hmain
    obtain ⟨rwn, hrwc⟩ : ∃ n : Nat, (n : Int) = rw := ⟨rw.toNat, Int.toNat_of_nonneg (by omega)⟩
    obtain ⟨rhn, hrhc⟩ : ∃ n : Nat, (n : Int) = rh := ⟨rh.toNat, Int.toNat_of_nonneg (by omega)⟩
    subst hrwc
    subst hrhc
    have hrwpos : 0 < rwn := by omega
    have hrhpos : 0 < rhn := by omega
    have hn : ((rwn : Int) * (rhn : Int)).toNat = rwn * rhn := by
      rw [← Int.natCast_mul, Int.toNat_natCast]
    rw [hn]
    by_cases hrect : x ≤ ((j % c.width : Nat) : Int) ∧
        ((j % c.width : Nat) : Int) < x + (rwn : Int) ∧
        y ≤ ((j / c.width : Nat) : Int) ∧ ((j / c.width : Nat) : Int) < y + (rhn : Int)
    · rw [if_pos hrect]
      obtain ⟨hx1, hx2, hy1, hy2⟩ := hrect
      obtain ⟨dx, hdxc⟩ : ∃ n : Nat, (n : Int) = ((j % c.width : Nat) : Int) - x :=
        ⟨(((j % c.width : Nat) : Int) - x).toNat, Int.toNat_of_nonneg (by omega)⟩
      obtain ⟨dy, hdyc⟩ : ∃ n : Nat, (n : Int) = ((j / c.width : Nat) : Int) - y :=
        ⟨(((j / c.width : Nat) : Int) - y).toNat, Int.toNat_of_nonneg (by omega)⟩
      have hdxlt : dx < rwn := by omega
      have hdylt : dy < rhn := by omega
      apply rectLoop_getElem_of_hit _ _ _ _ _ _ _ _ _ hj
      refine ⟨dy * rwn + dx, index_lt_prod rwn rhn dx dy hdxlt hdylt, ?_⟩
      have hmod : (dy * rwn + dx) % rwn = dx := by
        rw [show dy * rwn + dx = dx + rwn * dy by ring, Nat.add_mul_mod_self_left]
        exact Nat.mod_eq_of_lt hdxlt
      have hdiv : (dy * rwn + dx) / rwn = dy := by
        rw [show dy * rwn + dx = dx + rwn * dy by ring, Nat.add_mul_div_left _ _ hrwpos,
          Nat.div_eq_of_lt hdxlt, Nat.zero_add]
      have hpos := posFrom_closed rwn hrwpos x y (dy * rwn + dx)
      rw [hmod, hdiv] at hpos
      rw [hpos]
      unfold writesTo
      dsimp only
      have hmlt : j % c.width < c.width := Nat.mod_lt _ hW
      have hdlt : j / c.width < c.height := by
        have h5 : j < c.height * c.width := by rw [Nat.mul_comm]; omega
        exact (Nat.div_lt_iff_lt_mul hW).mpr h5
      have hnn1 : (0 : Int) ≤ ((j % c.width : Nat) : Int) := Int.natCast_nonneg _
      have hnn2 : (0 : Int) ≤ ((j / c.width : Nat) : Int) := Int.natCast_nonneg _
      have hmlt2 : ((j % c.width : Nat) : Int) < (c.width : Int) := by exact_mod_cast hmlt
      have hdlt2 : ((j / c.width : Nat) : Int) < (c.height : Int) := by exact_mod_cast hdlt
      clear hmod hdiv hpos
      refine ⟨⟨by omega, by omega, by omega, by omega⟩, ?_⟩
      have hxj : x + (dx : Int) = ((j % c.width : Nat) : Int) := by omega
      have hyj : y + (dy : Int) = ((j / c.width : Nat) : Int) := by omega
      rw [hxj, hyj, ← Int.natCast_mul, ← Int.natCast_add, Int.toNat_natCast]
      exact Nat.div_add_mod' j c.width
    · rw [if_neg hrect]
      apply rectLoop_getElem_of_no_hit
      intro i hi hwr
      rw [posFrom_closed rwn hrwpos x y] at hwr
      unfold writesTo at hwr
      dsimp only at hwr
      obtain ⟨⟨hb1, hb2, hb3, hb4⟩, hidx⟩ := hwr
      have hmodlt : i % rwn < rwn := Nat.mod_lt _ hrwpos
      have hdivlt : i / rwn < rhn := div_lt_of_lt_prod rwn rhn i hrwpos hi
      have hnn1 : (0 : Int) ≤ ((i % rwn : Nat) : Int) := Int.natCast_nonneg _
      have hnn2 : (0 : Int) ≤ ((i / rwn : Nat) : Int) := Int.natCast_nonneg _
      have hmodlt2 : ((i % rwn : Nat) : Int) < (rwn : Int) := by exact_mod_cast hmodlt
      have hdivlt2 : ((i / rwn : Nat) : Int) < (rhn : Int) := by exact_mod_cast hdivlt
      obtain ⟨gxn, hgxc⟩ : ∃ n : Nat, (n : Int) = x + ((i % rwn : Nat) : Int) :=
        ⟨(x + ((i % rwn : Nat) : Int)).toNat, Int.toNat_of_nonneg hb1⟩
      obtain ⟨gyn, hgyc⟩ : ∃ n : Nat, (n : Int) = y + ((i / rwn : Nat) : Int) :=
        ⟨(y + ((i / rwn : Nat) : Int)).toNat, Int.toNat_of_nonneg hb2⟩
      have hgxlt : gxn < c.width := by omega
      have hgylt : gyn < c.height := by omega
      have hj2 : j = gyn * c.width + gxn := by
        rw [← hgxc, ← hgyc, ← Int.natCast_mul, ← Int.natCast_add, Int.toNat_natCast] at hidx
        omega
      obtain ⟨hjm, hjd⟩ := euclid_unique c.width j gxn gyn hW hgxlt hj2
      apply hrect
      rw [hjm, hjd]
      exact ⟨by omega, by omega, by omega, by omega⟩
  · have hn0 : ((rw * rh)).toNat = 0 := by
      apply Int.toNat_of_nonpos
      rcases hdim with h | h
      · rcases (by omega : rw ≤ 0 ∨ rh ≤ 0) with h2 | h2
        · have hrw0 : rw = 0 := by omega
          rw [hrw0, zero_mul]
        · exact mul_nonpos_iff.mpr (Or.inl ⟨h, h2⟩)
      · rcases (by omega : rw ≤ 0 ∨ rh ≤ 0) with h2 | h2
        · exact mul_nonpos_iff.mpr (Or.inr ⟨h2, h⟩)
        · have hrh0 : rh = 0 := by omega
          rw [hrh0, mul_zero]
    rw [hn0]
    simp only [rectLoop]
    rw [if_neg]
    intro ⟨ha, hb, hc, hd⟩
    exact hmain ⟨by omega, by omega⟩

set_option maxRecDepth 8192 in
/-- Witness for C8: the spec's own example, a 10x10 rectangle drawn at
`(-5, -5)` on a 20x20 surface, evaluated at buffer cell 0 (coordinates
`(0, 0)`, inside the clipped on-surface quadrant). -/
theorem draw_rectangle_writes_witness :
    0 < (⟨List.replicate 400 7, 20, 20⟩ : Canvas).width ∧
    0 < (⟨List.replicate 400 7, 20, 20⟩ : Canvas).height ∧
    (⟨List.replicate 400 7, 20, 20⟩ : Canvas).buffer.length =
      (⟨List.replicate 400 7, 20, 20⟩ : Canvas).width *
        (⟨List.replicate 400 7, 20, 20⟩ : Canvas).height ∧
    ((0 : Int) ≤ 10 ∨ (0 : Int) ≤ 10) ∧
    0 < (⟨List.replicate 400 7, 20, 20⟩ : Canvas).buffer.length ∧
    (((⟨List.replicate 400 7, 20, 20⟩ : Canvas).draw_rectangle (-5) (-5) 10 10
        (Rgba.new 0 0 9 0)).buffer[0]? =
      if (-5 : Int) ≤ ((0 % (⟨List.replicate 400 7, 20, 20⟩ : Canvas).width : Nat) : Int) ∧
         ((0 % (⟨List.replicate 400 7, 20, 20⟩ : Canvas).width : Nat) : Int) < -5 + 10 ∧
         (-5 : Int) ≤ ((0 / (⟨List.replicate 400 7, 20, 20⟩ : Canvas).width : Nat) : Int) ∧
         ((0 / (⟨List.replicate 400 7, 20, 20⟩ : Canvas).width : Nat) : Int) < -5 + 10
      then some (Rgba.new 0 0 9 0).toU32
      else (⟨List.replicate 400 7, 20, 20⟩ : Canvas).buffer[0]?) :=
  ⟨by decide, by decide, by simp, by decide, by simp,
    draw_rectangle_writes _ (-5) (-5) 10 10 (Rgba.new 0 0 9 0) 0
      (by decide) (by decide) (by simp) (by decide) (by simp)⟩

end DisplayLib
